import Mathlib

/-!
Verification development for the finite-element field-map component
(`ComponentFieldMap`).  The repository provides the class header
`Include/Garfield/ComponentFieldMap.hh`; the inline member functions
(`IsInBoundingBox`, `GetVoltageRange`) are embedded directly from that
source.  The out-of-line member functions are only declared in the header,
so the operations they perform (element location, local-coordinate solving,
shape-function interpolation, time interpolation) are modelled from the
natural-language specification, as noted on each definition.

All real arithmetic is embedded over `ℚ`, so "within numerical tolerance"
statements become exact identities.
-/

namespace Garfield

/-- A 3-D point/vector with rational coordinates (models the `double x, y, z`
of `ComponentFieldMap::Node` and query points). -/
structure Vec3 where
  x : ℚ
  y : ℚ
  z : ℚ
deriving DecidableEq

/-- State fragment holding the global bounding box of the map, embedding the
members `m_minBoundingBox` / `m_maxBoundingBox` (arrays of 3 doubles,
default-initialised to 0 in the header). -/
structure BBoxState where
  m_minBoundingBox : Fin 3 → ℚ
  m_maxBoundingBox : Fin 3 → ℚ

/-- Direct embedding of the inline member
`ComponentFieldMap::IsInBoundingBox` (header lines 105-109).  The last
conjunct compares `y` (not `z`) against `m_maxBoundingBox[2]`, exactly as
written in the source. -/
def IsInBoundingBox (s : BBoxState) (x y z : ℚ) : Bool :=
  decide (x ≥ s.m_minBoundingBox 0) && decide (x ≤ s.m_maxBoundingBox 0) &&
  decide (y ≥ s.m_minBoundingBox 1) && decide (y ≤ s.m_maxBoundingBox 1) &&
  decide (z ≥ s.m_minBoundingBox 2) && decide (y ≤ s.m_maxBoundingBox 2)

/-- The corrected per-axis containment predicate, following the spec's words
("implementers should use the corrected per-axis comparison"): every
coordinate is compared against the bound of its own axis. -/
def IsInBoundingBoxCorrected (s : BBoxState) (x y z : ℚ) : Bool :=
  decide (x ≥ s.m_minBoundingBox 0) && decide (x ≤ s.m_maxBoundingBox 0) &&
  decide (y ≥ s.m_minBoundingBox 1) && decide (y ≤ s.m_maxBoundingBox 1) &&
  decide (z ≥ s.m_minBoundingBox 2) && decide (z ≤ s.m_maxBoundingBox 2)

/-- A concrete bounding-box state: the unit cube `[0,1]³`. -/
def bbUnit : BBoxState :=
  ⟨fun _ => 0, fun _ => 1⟩

/-- State fragment holding the potential extremes of the map, embedding the
members `m_mapvmin` / `m_mapvmax` (header lines 216-217). -/
structure VoltageState where
  m_mapvmin : ℚ
  m_mapvmax : ℚ
deriving DecidableEq

/-- The state of `m_mapvmin` / `m_mapvmax` before any field map is loaded:
both members are default-initialised to `0.` in the header. -/
def initVoltageState : VoltageState := ⟨0, 0⟩

/-- Direct embedding of the inline member
`ComponentFieldMap::GetVoltageRange` (header lines 116-120): it
unconditionally copies `m_mapvmin` / `m_mapvmax` into the output parameters
and returns `true`. -/
def GetVoltageRange (s : VoltageState) : Bool × ℚ × ℚ :=
  ⟨true, s.m_mapvmin, s.m_mapvmax⟩

/-- Barycentric (natural) coordinates of a tetrahedron: four simplex
coordinates summing to one, matching the `t1 .. t4` output parameters of
the coordinate solvers. -/
structure Bary where
  t1 : ℚ
  t2 : ℚ
  t3 : ℚ
  t4 : ℚ
deriving DecidableEq

/-- Modelled from the spec: a mesh element as consumed by the element
locator (the definitions of `FindElement13` and the coordinate solvers are
declared in the header but implemented in `ComponentFieldMap.cc`, which is
not in the repository).  Per the spec's data model an element carries node
references (resolved here to the four corner positions of the linear
tetrahedral fast path), a derived degeneracy flag (`m_degenerate`), and a
precomputed axis-aligned bounding box (`m_bbMin` / `m_bbMax`). -/
structure Element where
  n0 : Vec3
  n1 : Vec3
  n2 : Vec3
  n3 : Vec3
  degenerate : Bool
  bbMin : Vec3
  bbMax : Vec3
deriving DecidableEq

/-- Determinant of a 3×3 matrix whose three columns are given
component-wise (expansion used by the affine barycentric solve). -/
def det3 (u1 u2 u3 v1 v2 v3 w1 w2 w3 : ℚ) : ℚ :=
  u1 * (v2 * w3 - v3 * w2) - u2 * (v1 * w3 - v3 * w1) + u3 * (v1 * w2 - v2 * w1)

/-- Determinant of the edge matrix `[n1-n0 | n2-n0 | n3-n0]` of an element;
it is zero exactly for zero-measure (degenerate) tetrahedra. -/
def elemDet (e : Element) : ℚ :=
  det3 (e.n1.x - e.n0.x) (e.n1.y - e.n0.y) (e.n1.z - e.n0.z)
       (e.n2.x - e.n0.x) (e.n2.y - e.n0.y) (e.n2.z - e.n0.z)
       (e.n3.x - e.n0.x) (e.n3.y - e.n0.y) (e.n3.z - e.n0.z)

/-- Modelled from the spec: the linear-tetrahedron coordinate solve
(`Coordinates12`, implementation not in the repository) — "solved directly
via the precomputed affine relation".  The barycentric coordinates are the
Cramer solution of `[n1-n0 | n2-n0 | n3-n0] (t2,t3,t4)ᵀ = p - n0`, with
`t1 = 1 - t2 - t3 - t4`. -/
def Coordinates12 (e : Element) (p : Vec3) : Bary :=
  let u1 := e.n1.x - e.n0.x
  let u2 := e.n1.y - e.n0.y
  let u3 := e.n1.z - e.n0.z
  let v1 := e.n2.x - e.n0.x
  let v2 := e.n2.y - e.n0.y
  let v3 := e.n2.z - e.n0.z
  let w1 := e.n3.x - e.n0.x
  let w2 := e.n3.y - e.n0.y
  let w3 := e.n3.z - e.n0.z
  let q1 := p.x - e.n0.x
  let q2 := p.y - e.n0.y
  let q3 := p.z - e.n0.z
  let d := det3 u1 u2 u3 v1 v2 v3 w1 w2 w3
  let s2 := det3 q1 q2 q3 v1 v2 v3 w1 w2 w3 / d
  let s3 := det3 u1 u2 u3 q1 q2 q3 w1 w2 w3 / d
  let s4 := det3 u1 u2 u3 v1 v2 v3 q1 q2 q3 / d
  ⟨1 - s2 - s3 - s4, s2, s3, s4⟩

/-- Modelled from the spec: the shape-function evaluation of position at
given natural coordinates (`NaturalToPhysical`) for the linear tetrahedron:
the barycentric combination of the corner nodes. -/
def NaturalToPhysical (e : Element) (t : Bary) : Vec3 :=
  ⟨t.t1 * e.n0.x + t.t2 * e.n1.x + t.t3 * e.n2.x + t.t4 * e.n3.x,
   t.t1 * e.n0.y + t.t2 * e.n1.y + t.t3 * e.n2.y + t.t4 * e.n3.y,
   t.t1 * e.n0.z + t.t2 * e.n1.z + t.t3 * e.n2.z + t.t4 * e.n3.z⟩

/-- Closed natural-domain membership for barycentric coordinates: each
coordinate lies in `[0, 1]` (the locator's validity check; the exact
embedding over `ℚ` makes the boundary tolerance zero). -/
def inDomain (t : Bary) : Bool :=
  decide (0 ≤ t.t1) && decide (t.t1 ≤ 1) &&
  decide (0 ≤ t.t2) && decide (t.t2 ≤ 1) &&
  decide (0 ≤ t.t3) && decide (t.t3 ≤ 1) &&
  decide (0 ≤ t.t4) && decide (t.t4 ≤ 1)

/-- Open natural-domain membership: each barycentric coordinate lies
strictly inside `(0, 1)`. -/
def OpenDomain (t : Bary) : Prop :=
  (0 < t.t1 ∧ t.t1 < 1) ∧ (0 < t.t2 ∧ t.t2 < 1) ∧
  (0 < t.t3 ∧ t.t3 < 1) ∧ (0 < t.t4 ∧ t.t4 < 1)

/-- A point is strictly interior to an element when all four of its
barycentric coordinates with respect to that element are strictly
positive. -/
def StrictlyInterior (e : Element) (p : Vec3) : Prop :=
  0 < (Coordinates12 e p).t1 ∧ 0 < (Coordinates12 e p).t2 ∧
  0 < (Coordinates12 e p).t3 ∧ 0 < (Coordinates12 e p).t4

/-- Per-element bounding-box candidate filter (correct per-axis comparison,
as the spec prescribes for element bounding boxes). -/
def inElemBB (e : Element) (p : Vec3) : Bool :=
  decide (e.bbMin.x ≤ p.x) && decide (p.x ≤ e.bbMax.x) &&
  decide (e.bbMin.y ≤ p.y) && decide (p.y ≤ e.bbMax.y) &&
  decide (e.bbMin.z ≤ p.z) && decide (p.z ≤ e.bbMax.z)

/-- Modelled from the spec: a candidate element validly contains the point
when its bounding box contains the point, it is not degenerate ("degenerate
elements are skipped entirely by the locator"), and the solved natural
coordinates lie within the natural domain. -/
def validMatch (e : Element) (p : Vec3) : Bool :=
  inElemBB e p && !e.degenerate && inDomain (Coordinates12 e p)

/-- Scan of the candidate list in stable index order, returning the first
valid match together with its index and natural coordinates. -/
def FindElementAux (p : Vec3) : ℕ → List Element → Option (ℕ × Element × Bary)
  | _, [] => none
  | i, e :: es =>
    if validMatch e p then some (i, e, Coordinates12 e p)
    else FindElementAux p (i + 1) es

/-- Modelled from the spec: the element locator `FindElement13`
(implementation not in the repository).  Candidates are tried in index
order (stable lowest-index-first); each candidate is filtered by its
bounding box, by the degeneracy flag, and by the natural-domain validity
check of the solved coordinates; the first valid match is returned, or
`none` ("OutsideMesh") when no element matches. -/
def FindElement13 (elems : List Element) (p : Vec3) : Option (ℕ × Element × Bary) :=
  FindElementAux p 0 elems

/-- Status values surfaced by the field/potential evaluators, from the
spec's error taxonomy. -/
inductive FieldStatus where
  | Ok : FieldStatus
  | OutsideMesh : FieldStatus
  | NonDriftMedium : FieldStatus
deriving DecidableEq

/-- Modelled from the spec: the field inside a located element, "the
natural-coordinate gradient of the shape functions … multiplied by the
inverse Jacobian …, negated" — for the linear tetrahedron this is the
negated (constant) physical gradient of the affine interpolant
`p ↦ Σᵢ tᵢ(p) · vᵢ` of the nodal potentials `v`. -/
def negGradAffine (e : Element) (v : Fin 4 → ℚ) : Vec3 :=
  let u1 := e.n1.x - e.n0.x
  let u2 := e.n1.y - e.n0.y
  let u3 := e.n1.z - e.n0.z
  let v1 := e.n2.x - e.n0.x
  let v2 := e.n2.y - e.n0.y
  let v3 := e.n2.z - e.n0.z
  let w1 := e.n3.x - e.n0.x
  let w2 := e.n3.y - e.n0.y
  let w3 := e.n3.z - e.n0.z
  let d := det3 u1 u2 u3 v1 v2 v3 w1 w2 w3
  let g2 : Vec3 := ⟨(v2 * w3 - v3 * w2) / d, (v3 * w1 - v1 * w3) / d, (v1 * w2 - v2 * w1) / d⟩
  let g3 : Vec3 := ⟨(u3 * w2 - u2 * w3) / d, (u1 * w3 - u3 * w1) / d, (u2 * w1 - u1 * w2) / d⟩
  let g4 : Vec3 := ⟨(u2 * v3 - u3 * v2) / d, (u3 * v1 - u1 * v3) / d, (u1 * v2 - u2 * v1) / d⟩
  let g1 : Vec3 := ⟨-(g2.x + g3.x + g4.x), -(g2.y + g3.y + g4.y), -(g2.z + g3.z + g4.z)⟩
  ⟨-(v 0 * g1.x + v 1 * g2.x + v 2 * g3.x + v 3 * g4.x),
   -(v 0 * g1.y + v 1 * g2.y + v 2 * g3.y + v 3 * g4.y),
   -(v 0 * g1.z + v 1 * g2.z + v 2 * g3.z + v 3 * g4.z)⟩

/-- The affine interpolant of nodal potentials, as a function of the
physical point: `Φ(p) = Σᵢ tᵢ(p) · vᵢ` with `t = Coordinates12 e p`. -/
def Phi12 (e : Element) (v : Fin 4 → ℚ) (p : Vec3) : ℚ :=
  (Coordinates12 e p).t1 * v 0 + (Coordinates12 e p).t2 * v 1 +
  (Coordinates12 e p).t3 * v 2 + (Coordinates12 e p).t4 * v 3

/-- Modelled from the spec: the field driver `Field` (implementation not in
the repository).  It locates the element containing the point; when no
element is found the `OutsideMesh` status is returned as a value, otherwise
the interpolated field of the located element together with its index. -/
def Field (elems : List Element) (v : Element → Fin 4 → ℚ) (p : Vec3) :
    FieldStatus × Vec3 × Option ℕ :=
  match FindElement13 elems p with
  | none => ⟨FieldStatus.OutsideMesh, ⟨0, 0, 0⟩, none⟩
  | some (i, e, _) => ⟨FieldStatus.Ok, negGradAffine e (v e), some i⟩

/-- Modelled from the spec: the `ElectricField` entry point surfaces the
driver's status to the caller as a returned status value. -/
def ElectricField (elems : List Element) (v : Element → Fin 4 → ℚ) (p : Vec3) :
    Vec3 × FieldStatus :=
  ⟨(Field elems v p).2.1, (Field elems v p).1⟩

/-- A concrete non-degenerate element: the unit tetrahedron with corners at
the origin and the three unit points, with its exact bounding box. -/
def tetUnit : Element :=
  ⟨⟨0, 0, 0⟩, ⟨1, 0, 0⟩, ⟨0, 1, 0⟩, ⟨0, 0, 1⟩, false, ⟨0, 0, 0⟩, ⟨1, 1, 1⟩⟩

/-- A concrete degenerate element: all four corners coincide at the origin
(zero measure), yet its (stale) bounding box is the whole unit cube. -/
def degTet : Element :=
  ⟨⟨0, 0, 0⟩, ⟨0, 0, 0⟩, ⟨0, 0, 0⟩, ⟨0, 0, 0⟩, true, ⟨0, 0, 0⟩, ⟨1, 1, 1⟩⟩

/-- A concrete query point strictly interior to `tetUnit`. -/
def pQuarter : Vec3 := ⟨1/4, 1/4, 1/4⟩

/-- `c` is the linear (first-order Taylor) coefficient of `f` at `0`:
`f` agrees with a cubic expansion whose degree-one coefficient is `c`.
For the polynomial potentials interpolated by the shape functions this is
exactly "`c` is the directional derivative", stated algebraically over
`ℚ`. -/
def IsLinCoeff (f : ℚ → ℚ) (c : ℚ) : Prop :=
  ∃ c2 c3 : ℚ, ∀ e : ℚ, f e = f 0 + c * e + c2 * e ^ 2 + c3 * e ^ 3

/-- Barycentric coordinates of a triangle (the `t1, t2, t3` of the
curved-triangle shape functions). -/
structure Tri where
  t1 : ℚ
  t2 : ℚ
  t3 : ℚ
deriving DecidableEq

/-- Modelled from the spec: `Potential3` (implementation not in the
repository) — quadratic interpolation in a curved triangle: the standard
six-node quadratic simplex shape functions (corner `tᵢ(2tᵢ-1)`, mid-edge
`4tᵢtⱼ`) applied to the nodal values `v`. -/
def Potential3 (v : Fin 6 → ℚ) (t : Tri) : ℚ :=
  v 0 * t.t1 * (2 * t.t1 - 1) + v 1 * t.t2 * (2 * t.t2 - 1) +
  v 2 * t.t3 * (2 * t.t3 - 1) +
  4 * (v 3 * t.t1 * t.t2 + v 4 * t.t1 * t.t3 + v 5 * t.t2 * t.t3)

/-- The natural coordinates of the six nodes of the quadratic triangle
(corners, then mid-edge nodes). -/
def nodeCoords3 : Fin 6 → Tri
  | 0 => ⟨1, 0, 0⟩
  | 1 => ⟨0, 1, 0⟩
  | 2 => ⟨0, 0, 1⟩
  | 3 => ⟨1/2, 1/2, 0⟩
  | 4 => ⟨1/2, 0, 1/2⟩
  | 5 => ⟨0, 1/2, 1/2⟩

/-- The natural-coordinate gradient of the quadratic triangle shape
functions applied to nodal values (the exact closed-form partial
derivatives of `Potential3` with respect to `t1, t2, t3`). -/
def gradPotential3 (v : Fin 6 → ℚ) (t : Tri) : Tri :=
  ⟨v 0 * (4 * t.t1 - 1) + 4 * (v 3 * t.t2 + v 4 * t.t3),
   v 1 * (4 * t.t2 - 1) + 4 * (v 3 * t.t1 + v 5 * t.t3),
   v 2 * (4 * t.t3 - 1) + 4 * (v 4 * t.t1 + v 5 * t.t2)⟩

/-- Modelled from the spec: `Potential5` (implementation not in the
repository) — interpolation in a curved (eight-node serendipity)
quadrilateral with natural coordinates `t1, t2 ∈ [-1, 1]`. -/
def Potential5 (v : Fin 8 → ℚ) (t1 t2 : ℚ) : ℚ :=
  -v 0 * (1 - t1) * (1 - t2) * (1 + t1 + t2) / 4 -
  v 1 * (1 + t1) * (1 - t2) * (1 - t1 + t2) / 4 -
  v 2 * (1 + t1) * (1 + t2) * (1 - t1 - t2) / 4 -
  v 3 * (1 - t1) * (1 + t2) * (1 + t1 - t2) / 4 +
  v 4 * (1 - t1) * (1 + t1) * (1 - t2) / 2 +
  v 5 * (1 + t1) * (1 - t2) * (1 + t2) / 2 +
  v 6 * (1 - t1) * (1 + t1) * (1 + t2) / 2 +
  v 7 * (1 - t1) * (1 - t2) * (1 + t2) / 2

/-- The natural coordinates of the eight nodes of the serendipity
quadrilateral (corners, then mid-side nodes). -/
def nodeCoords5 : Fin 8 → ℚ × ℚ
  | 0 => ⟨-1, -1⟩
  | 1 => ⟨1, -1⟩
  | 2 => ⟨1, 1⟩
  | 3 => ⟨-1, 1⟩
  | 4 => ⟨0, -1⟩
  | 5 => ⟨1, 0⟩
  | 6 => ⟨0, 1⟩
  | 7 => ⟨-1, 0⟩

/-- The natural-coordinate gradient of the serendipity shape functions
applied to nodal values (exact closed-form partial derivatives of
`Potential5` with respect to `t1` and `t2`). -/
def gradPotential5 (v : Fin 8 → ℚ) (t1 t2 : ℚ) : ℚ × ℚ :=
  ⟨v 0 * (1 - t2) * (2 * t1 + t2) / 4 + v 1 * (1 - t2) * (2 * t1 - t2) / 4 +
     v 2 * (1 + t2) * (2 * t1 + t2) / 4 + v 3 * (1 + t2) * (2 * t1 - t2) / 4 -
     v 4 * t1 * (1 - t2) + v 5 * (1 - t2 * t2) / 2 -
     v 6 * t1 * (1 + t2) - v 7 * (1 - t2 * t2) / 2,
   v 0 * (1 - t1) * (2 * t2 + t1) / 4 + v 1 * (1 + t1) * (2 * t2 - t1) / 4 +
     v 2 * (1 + t1) * (2 * t2 + t1) / 4 + v 3 * (1 - t1) * (2 * t2 - t1) / 4 -
     v 4 * (1 - t1 * t1) / 2 - v 5 * t2 * (1 + t1) +
     v 6 * (1 - t1 * t1) / 2 - v 7 * t2 * (1 - t1)⟩

/-- Modelled from the spec: `Potential13` (implementation not in the
repository) — quadratic interpolation in a curved ten-node tetrahedron:
corner shape functions `tᵢ(2tᵢ-1)` and mid-edge functions `4tᵢtⱼ`. -/
def Potential13 (v : Fin 10 → ℚ) (t : Bary) : ℚ :=
  v 0 * t.t1 * (2 * t.t1 - 1) + v 1 * t.t2 * (2 * t.t2 - 1) +
  v 2 * t.t3 * (2 * t.t3 - 1) + v 3 * t.t4 * (2 * t.t4 - 1) +
  4 * (v 4 * t.t1 * t.t2 + v 5 * t.t1 * t.t3 + v 6 * t.t1 * t.t4 +
       v 7 * t.t2 * t.t3 + v 8 * t.t2 * t.t4 + v 9 * t.t3 * t.t4)

/-- The natural coordinates of the ten nodes of the quadratic tetrahedron
(corners, then mid-edge nodes). -/
def nodeCoords13 : Fin 10 → Bary
  | 0 => ⟨1, 0, 0, 0⟩
  | 1 => ⟨0, 1, 0, 0⟩
  | 2 => ⟨0, 0, 1, 0⟩
  | 3 => ⟨0, 0, 0, 1⟩
  | 4 => ⟨1/2, 1/2, 0, 0⟩
  | 5 => ⟨1/2, 0, 1/2, 0⟩
  | 6 => ⟨1/2, 0, 0, 1/2⟩
  | 7 => ⟨0, 1/2, 1/2, 0⟩
  | 8 => ⟨0, 1/2, 0, 1/2⟩
  | 9 => ⟨0, 0, 1/2, 1/2⟩

/-- The natural-coordinate gradient of the quadratic tetrahedral shape
functions applied to nodal values (exact closed-form partial derivatives
of `Potential13` with respect to `t1 .. t4`). -/
def gradPotential13 (v : Fin 10 → ℚ) (t : Bary) : Bary :=
  ⟨v 0 * (4 * t.t1 - 1) + 4 * (v 4 * t.t2 + v 5 * t.t3 + v 6 * t.t4),
   v 1 * (4 * t.t2 - 1) + 4 * (v 4 * t.t1 + v 7 * t.t3 + v 8 * t.t4),
   v 2 * (4 * t.t3 - 1) + 4 * (v 5 * t.t1 + v 7 * t.t2 + v 9 * t.t4),
   v 3 * (4 * t.t4 - 1) + 4 * (v 6 * t.t1 + v 8 * t.t2 + v 9 * t.t3)⟩

/-- An affine natural-coordinate map of a straight-sided triangle: the
barycentric coordinates as affine functions of the physical point
`(x, y)`, with constant terms `A` and gradient coefficients `B`. -/
def tAffine3 (A : Fin 3 → ℚ) (B : Fin 3 → ℚ × ℚ) (x y : ℚ) : Tri :=
  ⟨A 0 + (B 0).1 * x + (B 0).2 * y,
   A 1 + (B 1).1 * x + (B 1).2 * y,
   A 2 + (B 2).1 * x + (B 2).2 * y⟩

/-- An affine natural-coordinate map of a parallelogram-shaped
quadrilateral. -/
def tAffine5 (A : Fin 2 → ℚ) (B : Fin 2 → ℚ × ℚ) (x y : ℚ) : ℚ × ℚ :=
  ⟨A 0 + (B 0).1 * x + (B 0).2 * y, A 1 + (B 1).1 * x + (B 1).2 * y⟩

/-- An affine natural-coordinate map of a straight-sided tetrahedron. -/
def tAffine13 (A : Fin 4 → ℚ) (B : Fin 4 → Vec3) (p : Vec3) : Bary :=
  ⟨A 0 + (B 0).x * p.x + (B 0).y * p.y + (B 0).z * p.z,
   A 1 + (B 1).x * p.x + (B 1).y * p.y + (B 1).z * p.z,
   A 2 + (B 2).x * p.x + (B 2).y * p.y + (B 2).z * p.z,
   A 3 + (B 3).x * p.x + (B 3).y * p.y + (B 3).z * p.z⟩

/-- The interpolated potential of the triangle family as a function of the
physical point. -/
def Phi3 (A : Fin 3 → ℚ) (B : Fin 3 → ℚ × ℚ) (v : Fin 6 → ℚ) (x y : ℚ) : ℚ :=
  Potential3 v (tAffine3 A B x y)

/-- The interpolated potential of the quadrilateral family as a function
of the physical point. -/
def Phi5 (A : Fin 2 → ℚ) (B : Fin 2 → ℚ × ℚ) (v : Fin 8 → ℚ) (x y : ℚ) : ℚ :=
  Potential5 v (tAffine5 A B x y).1 (tAffine5 A B x y).2

/-- The interpolated potential of the tetrahedral family as a function of
the physical point. -/
def Phi13 (A : Fin 4 → ℚ) (B : Fin 4 → Vec3) (v : Fin 10 → ℚ) (p : Vec3) : ℚ :=
  Potential13 v (tAffine13 A B p)

/-- Modelled from the spec: `Field3` (implementation not in the
repository) — the field as "the natural-coordinate gradient of the shape
functions" mapped to physical space by the (here constant, affine)
inverse-Jacobian coefficients `B` and negated. -/
def Field3 (A : Fin 3 → ℚ) (B : Fin 3 → ℚ × ℚ) (v : Fin 6 → ℚ) (x y : ℚ) : ℚ × ℚ :=
  let g := gradPotential3 v (tAffine3 A B x y)
  ⟨-(g.t1 * (B 0).1 + g.t2 * (B 1).1 + g.t3 * (B 2).1),
   -(g.t1 * (B 0).2 + g.t2 * (B 1).2 + g.t3 * (B 2).2)⟩

/-- Modelled from the spec: `Field5` (implementation not in the
repository), for an affine natural-coordinate map. -/
def Field5 (A : Fin 2 → ℚ) (B : Fin 2 → ℚ × ℚ) (v : Fin 8 → ℚ) (x y : ℚ) : ℚ × ℚ :=
  let g := gradPotential5 v (tAffine5 A B x y).1 (tAffine5 A B x y).2
  ⟨-(g.1 * (B 0).1 + g.2 * (B 1).1), -(g.1 * (B 0).2 + g.2 * (B 1).2)⟩

/-- Modelled from the spec: `Field13` (implementation not in the
repository), for an affine natural-coordinate map. -/
def Field13 (A : Fin 4 → ℚ) (B : Fin 4 → Vec3) (v : Fin 10 → ℚ) (p : Vec3) : Vec3 :=
  let g := gradPotential13 v (tAffine13 A B p)
  ⟨-(g.t1 * (B 0).x + g.t2 * (B 1).x + g.t3 * (B 2).x + g.t4 * (B 3).x),
   -(g.t1 * (B 0).y + g.t2 * (B 1).y + g.t3 * (B 2).y + g.t4 * (B 3).y),
   -(g.t1 * (B 0).z + g.t2 * (B 1).z + g.t3 * (B 2).z + g.t4 * (B 3).z)⟩

/-- Concrete affine-map constants used to witness the field identities. -/
def wA13 : Fin 4 → ℚ := fun _ => 0

/-- Concrete affine-map coefficients used to witness the field
identities. -/
def wB13 : Fin 4 → Vec3 := fun i => ⟨(i : ℚ), 1, 0⟩

/-- Concrete nodal potentials (ten-node tetrahedron) for the witness. -/
def wV13 : Fin 10 → ℚ := fun i => (i : ℚ)

/-- Concrete nodal potentials (four-node tetrahedron) for the witness. -/
def wV4 : Fin 4 → ℚ := fun i => (i : ℚ)

/-- Concrete evaluation point for the witness. -/
def wP : Vec3 := ⟨0, 0, 0⟩

/-- Modelled from the spec: `TimeInterpolation` (implementation not in the
repository) — "given a requested time `t` and an ordered sequence of
sample times (`m_wdtimes`), locate the bracketing pair `t0 ≤ t < t1` via
the sequence's monotonic ordering (out-of-range `t` clamps to the nearest
end), and return the two bracketing indices plus linear blend weights
`f0, f1`".  Returns `(f0, f1, i0, i1)`. -/
def TimeInterpolation : List ℚ → ℚ → ℚ × ℚ × ℕ × ℕ
  | [], _ => (1, 0, 0, 0)
  | [_], _ => (1, 0, 0, 0)
  | s0 :: s1 :: rest, t =>
    if t < s0 then (1, 0, 0, 0)
    else if t < s1 then ((s1 - t) / (s1 - s0), (t - s0) / (s1 - s0), 0, 1)
    else
      let r := TimeInterpolation (s1 :: rest) t
      (r.1, r.2.1, r.2.2.1 + 1, r.2.2.2 + 1)

/-- The linear blend of the two bracketed sample values selected by a
`TimeInterpolation` result: `f0·vals[i0] + f1·vals[i1]`. -/
def blendT (r : ℚ × ℚ × ℕ × ℕ) (vals : List ℚ) : ℚ :=
  r.1 * vals.getD r.2.2.1 0 + r.2.1 * vals.getD r.2.2.2 0

/-- A concrete strictly increasing sample-time sequence for the witness. -/
def wTimes : List ℚ := [0, 1]

/-- State fragment embedding the warning members `m_nWarnings` and
`m_printConvergenceWarnings` of the header. -/
structure WarningState where
  m_nWarnings : ℕ
  m_printConvergenceWarnings : Bool
deriving DecidableEq

/-- Modelled from the spec: the Newton iteration of the curved-element
coordinate solvers, abstracted over the per-step update `step` and the
convergence test `conv` ("residual norm below a fixed small tolerance").
The fuel argument is the fixed maximum iteration count; the loop stops
early on convergence and otherwise returns the last iterate with a
`false` convergence flag. -/
def newtonLoop {α : Type} (step : α → α) (conv : α → Bool) : ℕ → α → α × Bool
  | 0, c => (c, conv c)
  | Nat.succ n, c => if conv c then (c, true) else newtonLoop step conv n (step c)

/-- Modelled from the spec: the convergence/fallback policy of the
curved-element coordinate solve `Coordinates13` (implementation not in the
repository): run the capped Newton iteration; on non-convergence still
return the best-available coordinates as a soft failure, increment the
warning counter `m_nWarnings`, and emit a diagnostic exactly when
`m_printConvergenceWarnings` is enabled.  The result is
`(coordinates, converged, new warning state, diagnostic emitted)`; the
function is total, so the solve always terminates and never aborts. -/
def Coordinates13 {α : Type} (step : α → α) (conv : α → Bool) (cap : ℕ)
    (c0 : α) (s : WarningState) : α × Bool × WarningState × Bool :=
  let r := newtonLoop step conv cap c0
  if r.2 then (r.1, true, s, false)
  else (r.1, false, ⟨s.m_nWarnings + 1, s.m_printConvergenceWarnings⟩,
        s.m_printConvergenceWarnings)

end Garfield

namespace Garfield

/-- C1: `IsInBoundingBox` does not test the z upper bound.  On the unit-cube
bounding box, the point `(0, 0, 2)` has `x`, `y` within their bounds,
`z ≥` the z lower bound, `y ≤ m_maxBoundingBox[2]`, and `z = 2` strictly
greater than `m_maxBoundingBox[2] = 1`, yet `IsInBoundingBox` returns
`true`; the corrected per-axis containment predicate returns `false` there,
so the two disagree. -/
theorem isInBoundingBox_misses_z_upper_bound :
    IsInBoundingBox bbUnit 0 0 2 = true ∧
    bbUnit.m_maxBoundingBox 2 < 2 ∧
    bbUnit.m_minBoundingBox 2 ≤ 2 ∧
    IsInBoundingBoxCorrected bbUnit 0 0 2 = false := by
  refine ⟨by decide, by norm_num [bbUnit], by norm_num [bbUnit], by decide⟩

/-- C10: `GetVoltageRange` returns `true` for every state of the component,
and in the initial state (no field map loaded, `m_mapvmin = m_mapvmax = 0`)
it reports the range `vmin = vmax = 0` rather than signalling that no
voltage range is available. -/
theorem getVoltageRange_always_true :
    (∀ s : VoltageState, (GetVoltageRange s).1 = true) ∧
    GetVoltageRange initVoltageState = ⟨true, 0, 0⟩ :=
  ⟨fun _ => rfl, rfl⟩

/-- The four barycentric coordinates returned by the affine solve always
sum to one. -/
theorem bary_sum (e : Element) (p : Vec3) :
    (Coordinates12 e p).t1 + (Coordinates12 e p).t2 + (Coordinates12 e p).t3 +
      (Coordinates12 e p).t4 = 1 := by
  simp only [Coordinates12]
  ring

/-- For a non-degenerate element the solved barycentric coordinates map
back to the query point through the shape functions (Cramer's rule). -/
theorem coordinates12_roundtrip (e : Element) (p : Vec3) (h : elemDet e ≠ 0) :
    NaturalToPhysical e (Coordinates12 e p) = p := by
  obtain ⟨px, py, pz⟩ := p
  simp only [NaturalToPhysical, Coordinates12, Vec3.mk.injEq]
  simp only [elemDet, det3] at h
  refine ⟨?_, ?_, ?_⟩ <;>
  · field_simp [det3]
    ring

/-- Strict interiority gives coordinates in the open natural domain. -/
theorem openDomain_of_interior (e : Element) (p : Vec3)
    (h : StrictlyInterior e p) : OpenDomain (Coordinates12 e p) := by
  obtain ⟨h1, h2, h3, h4⟩ := h
  have hsum := bary_sum e p
  exact ⟨⟨h1, by linarith⟩, ⟨h2, by linarith⟩, ⟨h3, by linarith⟩, ⟨h4, by linarith⟩⟩

/-- Coordinates in the open natural domain pass the closed validity
check. -/
theorem inDomain_of_openDomain (t : Bary) (h : OpenDomain t) :
    inDomain t = true := by
  obtain ⟨⟨a1, b1⟩, ⟨a2, b2⟩, ⟨a3, b3⟩, ⟨a4, b4⟩⟩ := h
  simp only [inDomain, Bool.and_eq_true, decide_eq_true_eq]
  refine ⟨⟨⟨⟨⟨⟨⟨?_, ?_⟩, ?_⟩, ?_⟩, ?_⟩, ?_⟩, ?_⟩, ?_⟩ <;> linarith

/-- The candidate scan returns the entry at index `n` when that entry is a
valid match and every earlier entry is not. -/
theorem findAux_found (p : Vec3) :
    ∀ (es : List Element) (n k : ℕ) (e : Element),
      es[n]? = some e → validMatch e p = true →
      (∀ j, j < n → ∀ e2, es[j]? = some e2 → validMatch e2 p = false) →
      FindElementAux p k es = some (k + n, e, Coordinates12 e p) := by
  intro es
  induction es with
  | nil => intro n k e h _ _; simp at h
  | cons f rest ih =>
    intro n k e hget hvalid hprev
    match n with
    | 0 =>
      rw [List.getElem?_cons_zero] at hget
      injection hget with hget
      subst hget
      simp [FindElementAux, hvalid]
    | Nat.succ m =>
      have hf : validMatch f p = false := hprev 0 (Nat.succ_pos m) f (by simp)
      have hrec := ih m (k + 1) e (by simpa using hget) hvalid
        (fun j hj e2 hg => hprev (j + 1) (Nat.succ_lt_succ hj) e2 (by simpa using hg))
      have hksucc : k + 1 + m = k + (m + 1) := by omega
      simp only [FindElementAux, hf]
      simp only [Bool.false_eq_true, if_false]
      rw [hrec, hksucc]

/-- The candidate scan returns nothing when no entry is a valid match. -/
theorem findAux_none (p : Vec3) :
    ∀ (es : List Element) (k : ℕ),
      (∀ e ∈ es, validMatch e p = false) →
      FindElementAux p k es = none := by
  intro es
  induction es with
  | nil => intro k _; rfl
  | cons f rest ih =>
    intro k h
    have hf := h f (List.mem_cons_self f rest)
    simp only [FindElementAux, hf, Bool.false_eq_true, if_false]
    exact ih (k + 1) (fun e he => h e (List.mem_cons_of_mem f he))

/-- Whatever the candidate scan returns is a valid match located at the
returned index, and carries that element's solved coordinates. -/
theorem findAux_some_valid (p : Vec3) :
    ∀ (es : List Element) (k i : ℕ) (e : Element) (t : Bary),
      FindElementAux p k es = some (i, e, t) →
      validMatch e p = true ∧ t = Coordinates12 e p ∧
        ∃ n, i = k + n ∧ es[n]? = some e := by
  intro es
  induction es with
  | nil => intro k i e t h; simp [FindElementAux] at h
  | cons f rest ih =>
    intro k i e t h
    by_cases hf : validMatch f p = true
    · simp only [FindElementAux, hf, if_true] at h
      injection h with h
      injection h with h1 h2
      injection h2 with h2 h3
      subst h1; subst h2; subst h3
      exact ⟨hf, rfl, 0, by omega, by simp⟩
    · simp only [FindElementAux, hf, if_false] at h
      obtain ⟨hv, ht, n, hi, hg⟩ := ih (k + 1) i e t h
      exact ⟨hv, ht, n + 1, by omega, by simpa using hg⟩

/-- When some entry is a valid match, the candidate scan returns the valid
match of least index. -/
theorem findAux_min (p : Vec3) :
    ∀ (es : List Element) (k : ℕ) (n : ℕ) (e : Element),
      es[n]? = some e → validMatch e p = true →
      ∃ (m : ℕ) (e2 : Element),
        FindElementAux p k es = some (k + m, e2, Coordinates12 e2 p) ∧ m ≤ n ∧
        es[m]? = some e2 ∧ validMatch e2 p = true ∧
        (∀ j, j < m → ∀ e3, es[j]? = some e3 → validMatch e3 p = false) := by
  intro es
  induction es with
  | nil => intro k n e h _; simp at h
  | cons f rest ih =>
    intro k n e hget hvalid
    by_cases hf : validMatch f p = true
    · refine ⟨0, f, ?_, Nat.zero_le n, by simp, hf,
        fun j hj => absurd hj (Nat.not_lt_zero j)⟩
      simp [FindElementAux, hf]
    · match n with
      | 0 =>
        rw [List.getElem?_cons_zero] at hget
        injection hget with hget
        subst hget
        exact absurd hvalid hf
      | Nat.succ m =>
        obtain ⟨m2, e2, hfind, hle, hg2, hv2, hmin⟩ :=
          ih (k + 1) m e (by simpa using hget) hvalid
        refine ⟨m2 + 1, e2, ?_, Nat.succ_le_succ hle, by simpa using hg2, hv2, ?_⟩
        · have hk : k + 1 + m2 = k + (m2 + 1) := by omega
          simp only [FindElementAux, hf, Bool.false_eq_true, if_false]
          rw [hfind, hk]
        · intro j hj e3 hg3
          match j with
          | 0 =>
            rw [List.getElem?_cons_zero] at hg3
            injection hg3 with hg3
            subst hg3
            exact eq_false_of_ne_true hf
          | Nat.succ j2 =>
            exact hmin j2 (by omega) e3 (by simpa using hg3)

/-- C2: for a point strictly interior to a non-degenerate element whose
bounding box contains the point, and which no earlier candidate validly
contains, the element locator returns that element's index together with
its natural coordinates; the coordinates lie inside the open natural
domain, and mapping them back through the shape functions reproduces the
query point exactly (exactly over `ℚ`, i.e. within numerical tolerance). -/
theorem findElement13_interior_roundtrip
    (elems : List Element) (i : ℕ) (e : Element) (p : Vec3)
    (hi : elems[i]? = some e)
    (hdeg : e.degenerate = false)
    (hdet : elemDet e ≠ 0)
    (hbb : inElemBB e p = true)
    (hint : StrictlyInterior e p)
    (hprev : ∀ j, j < i → ∀ e2, elems[j]? = some e2 → validMatch e2 p = false) :
    FindElement13 elems p = some (i, e, Coordinates12 e p) ∧
    OpenDomain (Coordinates12 e p) ∧
    NaturalToPhysical e (Coordinates12 e p) = p := by
  have hopen := openDomain_of_interior e p hint
  have hdom := inDomain_of_openDomain _ hopen
  have hvalid : validMatch e p = true := by
    simp [validMatch, hbb, hdeg, hdom]
  have hfind := findAux_found p elems i 0 e hi hvalid hprev
  refine ⟨?_, hopen, coordinates12_roundtrip e p hdet⟩
  simpa [FindElement13] using hfind

/-- C2 witness: the locator on the one-element mesh `[tetUnit]` at the
interior point `(1/4, 1/4, 1/4)` returns element 0 with open-domain
coordinates that map back to the point. -/
theorem findElement13_interior_roundtrip_witness :
    elemDet tetUnit ≠ 0 ∧ StrictlyInterior tetUnit pQuarter ∧
    (FindElement13 [tetUnit] pQuarter =
        some (0, tetUnit, Coordinates12 tetUnit pQuarter) ∧
      OpenDomain (Coordinates12 tetUnit pQuarter) ∧
      NaturalToPhysical tetUnit (Coordinates12 tetUnit pQuarter) = pQuarter) :=
  ⟨by norm_num [elemDet, det3, tetUnit],
    by norm_num [StrictlyInterior, Coordinates12, det3, tetUnit, pQuarter],
    findElement13_interior_roundtrip [tetUnit] 0 tetUnit pQuarter
      (by simp) (by rfl) (by norm_num [elemDet, det3, tetUnit])
      (by norm_num [inElemBB, tetUnit, pQuarter])
      (by norm_num [StrictlyInterior, Coordinates12, det3, tetUnit, pQuarter])
      (fun j hj => absurd hj (Nat.not_lt_zero j))⟩

/-- C6: the element locator never returns an element whose degeneracy flag
is set (whatever it returns is a valid, non-degenerate match at the
returned index), and when every bounding-box candidate is degenerate the
query resolves to a not-found (`OutsideMesh`) result. -/
theorem findElement13_skips_degenerate :
    (∀ (elems : List Element) (p : Vec3) (i : ℕ) (e : Element) (t : Bary),
      FindElement13 elems p = some (i, e, t) →
      elems[i]? = some e ∧ e.degenerate = false) ∧
    (∀ (elems : List Element) (p : Vec3),
      (∀ e ∈ elems, inElemBB e p = true → e.degenerate = true) →
      FindElement13 elems p = none) := by
  constructor
  · intro elems p i e t h
    obtain ⟨hv, -, n, hi, hg⟩ := findAux_some_valid p elems 0 i e t h
    have hdeg : e.degenerate = false := by
      simp only [validMatch, Bool.and_eq_true, Bool.not_eq_true'] at hv
      exact hv.1.2
    exact ⟨by rwa [hi, Nat.zero_add], hdeg⟩
  · intro elems p h
    refine findAux_none p elems 0 (fun e he => ?_)
    by_cases hbb : inElemBB e p = true
    · have hdeg := h e he hbb
      simp [validMatch, hdeg]
    · simp [validMatch, hbb]

/-- C6 witness: on the one-element mesh consisting of the degenerate
element `degTet`, whose stale bounding box contains the origin, the locator
returns not-found. -/
theorem findElement13_skips_degenerate_witness :
    (∀ e ∈ [degTet], inElemBB e ⟨0, 0, 0⟩ = true → e.degenerate = true) ∧
    inElemBB degTet ⟨0, 0, 0⟩ = true ∧
    FindElement13 [degTet] ⟨0, 0, 0⟩ = none :=
  ⟨by intro e he hbb; simp only [List.mem_singleton] at he; subst he; rfl,
    by norm_num [inElemBB, degTet],
    findElement13_skips_degenerate.2 [degTet] ⟨0, 0, 0⟩
      (by intro e he hbb; simp only [List.mem_singleton] at he; subst he; rfl)⟩

/-- C8: when the point is contained in no mesh element the locator returns
a not-found value, the `Field` driver surfaces this as the `OutsideMesh`
status value (with a zero field and no element index), and `ElectricField`
propagates the same status to the caller.  Both evaluators are total
functions: every outcome is a returned status value, never an abort. -/
theorem field_outside_mesh_status
    (elems : List Element) (v : Element → Fin 4 → ℚ) (p : Vec3)
    (h : FindElement13 elems p = none) :
    Field elems v p = ⟨FieldStatus.OutsideMesh, ⟨0, 0, 0⟩, none⟩ ∧
    (ElectricField elems v p).2 = FieldStatus.OutsideMesh := by
  constructor
  · simp [Field, h]
  · simp [ElectricField, Field, h]

/-- C8 witness: on the empty mesh every point is outside; the driver and
`ElectricField` both report `OutsideMesh`. -/
theorem field_outside_mesh_status_witness :
    FindElement13 [] ⟨0, 0, 0⟩ = none ∧
    (Field [] (fun _ _ => 0) ⟨0, 0, 0⟩ =
        ⟨FieldStatus.OutsideMesh, ⟨0, 0, 0⟩, none⟩ ∧
      (ElectricField [] (fun _ _ => 0) ⟨0, 0, 0⟩).2 = FieldStatus.OutsideMesh) :=
  ⟨rfl, field_outside_mesh_status [] (fun _ _ => 0) ⟨0, 0, 0⟩ rfl⟩

/-- C9: the element locator is a pure function of the (read-only) mesh and
the query point — mirroring the `const` qualifier of `FindElement13` in the
header — and when at least one element validly contains the point it
returns the valid match of lowest element index: the returned index is a
valid match, is no greater than the index of any valid match, and every
earlier candidate fails the validity check (stable lowest-index-first
order). -/
theorem findElement13_deterministic_lowest_index
    (elems : List Element) (p : Vec3) (i : ℕ) (e : Element)
    (hi : elems[i]? = some e) (hv : validMatch e p = true) :
    ∃ (j : ℕ) (e2 : Element),
      FindElement13 elems p = some (j, e2, Coordinates12 e2 p) ∧ j ≤ i ∧
      elems[j]? = some e2 ∧ validMatch e2 p = true ∧
      (∀ k, k < j → ∀ e3, elems[k]? = some e3 → validMatch e3 p = false) := by
  obtain ⟨m, e2, hfind, hle, hg, hv2, hmin⟩ := findAux_min p elems 0 i e hi hv
  exact ⟨m, e2, by simpa [FindElement13] using hfind, hle, hg, hv2, hmin⟩

/-- C9 witness: on a mesh whose two entries both validly contain the query
point `(1/4, 1/4, 1/4)`, the locator returns the match at the lowest
index 0. -/
theorem findElement13_deterministic_lowest_index_witness :
    validMatch tetUnit pQuarter = true ∧
    (∃ (j : ℕ) (e2 : Element),
      FindElement13 [tetUnit, tetUnit] pQuarter =
          some (j, e2, Coordinates12 e2 pQuarter) ∧ j ≤ 1 ∧
      [tetUnit, tetUnit][j]? = some e2 ∧ validMatch e2 pQuarter = true ∧
      (∀ k, k < j → ∀ e3, [tetUnit, tetUnit][k]? = some e3 →
        validMatch e3 pQuarter = false)) :=
  ⟨by norm_num [validMatch, inElemBB, inDomain, Coordinates12, det3, tetUnit, pQuarter],
    findElement13_deterministic_lowest_index [tetUnit, tetUnit] pQuarter 1
      tetUnit (by simp)
      (by norm_num [validMatch, inElemBB, inDomain, Coordinates12, det3, tetUnit,
        pQuarter])⟩

/-- C4: the shape functions of all three element families are
interpolatory at the nodes: evaluating the potential interpolation at the
natural coordinates of any node `k` of the element returns exactly the
`k`-th nodal value, for every vector of nodal values. -/
theorem potential_interpolates_at_nodes :
    (∀ (v : Fin 6 → ℚ) (k : Fin 6), Potential3 v (nodeCoords3 k) = v k) ∧
    (∀ (v : Fin 8 → ℚ) (k : Fin 8),
      Potential5 v (nodeCoords5 k).1 (nodeCoords5 k).2 = v k) ∧
    (∀ (v : Fin 10 → ℚ) (k : Fin 10), Potential13 v (nodeCoords13 k) = v k) := by
  refine ⟨fun v k => ?_, fun v k => ?_, fun v k => ?_⟩ <;>
  · fin_cases k <;>
    · simp [Potential3, Potential5, Potential13, nodeCoords3, nodeCoords5,
        nodeCoords13]
      ring

/-- The triangle-family field equals the negated central difference of the
interpolated potential along each physical axis; exact because the
triangle shape functions have degree 2. -/
theorem field3_central_diff (A : Fin 3 → ℚ) (B : Fin 3 → ℚ × ℚ)
    (v : Fin 6 → ℚ) (x y e : ℚ) (he : e ≠ 0) :
    (Field3 A B v x y).1 =
      -((Phi3 A B v (x + e) y - Phi3 A B v (x - e) y) / (2 * e)) ∧
    (Field3 A B v x y).2 =
      -((Phi3 A B v x (y + e) - Phi3 A B v x (y - e)) / (2 * e)) := by
  refine ⟨?_, ?_⟩ <;>
  · simp only [Field3, Phi3, Potential3, gradPotential3, tAffine3]
    field_simp
    ring

/-- The tetrahedral-family field equals the negated central difference of
the interpolated potential along each physical axis; exact because the
tetrahedral shape functions have degree 2. -/
theorem field13_central_diff (A : Fin 4 → ℚ) (B : Fin 4 → Vec3)
    (v : Fin 10 → ℚ) (p : Vec3) (e : ℚ) (he : e ≠ 0) :
    (Field13 A B v p).x =
      -((Phi13 A B v ⟨p.x + e, p.y, p.z⟩ - Phi13 A B v ⟨p.x - e, p.y, p.z⟩) / (2 * e)) ∧
    (Field13 A B v p).y =
      -((Phi13 A B v ⟨p.x, p.y + e, p.z⟩ - Phi13 A B v ⟨p.x, p.y - e, p.z⟩) / (2 * e)) ∧
    (Field13 A B v p).z =
      -((Phi13 A B v ⟨p.x, p.y, p.z + e⟩ - Phi13 A B v ⟨p.x, p.y, p.z - e⟩) / (2 * e)) := by
  refine ⟨?_, ?_, ?_⟩ <;>
  · simp only [Field13, Phi13, Potential13, gradPotential13, tAffine13]
    field_simp
    ring

set_option maxHeartbeats 2000000 in
/-- The quadrilateral-family field is the negated linear Taylor
coefficient of the interpolated potential along each physical axis (the
serendipity shape polynomials have degree 3, so a plain central difference
is exact only to second order; the linear coefficient is the exact
derivative statement). -/
theorem field5_lin_coeff (A : Fin 2 → ℚ) (B : Fin 2 → ℚ × ℚ)
    (v : Fin 8 → ℚ) (x y : ℚ) :
    IsLinCoeff (fun e => Phi5 A B v (x + e) y) (-(Field5 A B v x y).1) ∧
    IsLinCoeff (fun e => Phi5 A B v x (y + e)) (-(Field5 A B v x y).2) := by
  constructor
  · refine ⟨(Phi5 A B v (x + 1) y + Phi5 A B v (x - 1) y - 2 * Phi5 A B v x y) / 2,
      (Phi5 A B v (x + 2) y - 2 * Phi5 A B v (x + 1) y + 2 * Phi5 A B v (x - 1) y -
        Phi5 A B v (x - 2) y) / 12, fun e => ?_⟩
    simp only [Field5, Phi5, Potential5, gradPotential5, tAffine5]
    ring
  · refine ⟨(Phi5 A B v x (y + 1) + Phi5 A B v x (y - 1) - 2 * Phi5 A B v x y) / 2,
      (Phi5 A B v x (y + 2) - 2 * Phi5 A B v x (y + 1) + 2 * Phi5 A B v x (y - 1) -
        Phi5 A B v x (y - 2)) / 12, fun e => ?_⟩
    simp only [Field5, Phi5, Potential5, gradPotential5, tAffine5]
    ring

set_option maxHeartbeats 1000000 in
/-- The field returned by the driver for a located (non-degenerate)
element is the negated linear Taylor coefficient — i.e. the negated
gradient — of the element's interpolated potential along each axis. -/
theorem negGradAffine_lin_coeff (el : Element) (vv : Fin 4 → ℚ) (p : Vec3)
    (hd : elemDet el ≠ 0) :
    IsLinCoeff (fun s => Phi12 el vv ⟨p.x + s, p.y, p.z⟩) (-(negGradAffine el vv).x) ∧
    IsLinCoeff (fun s => Phi12 el vv ⟨p.x, p.y + s, p.z⟩) (-(negGradAffine el vv).y) ∧
    IsLinCoeff (fun s => Phi12 el vv ⟨p.x, p.y, p.z + s⟩) (-(negGradAffine el vv).z) := by
  simp only [elemDet, det3] at hd
  refine ⟨⟨0, 0, fun s => ?_⟩, ⟨0, 0, fun s => ?_⟩, ⟨0, 0, fun s => ?_⟩⟩ <;>
  · simp only [Phi12, Coordinates12, negGradAffine, det3]
    field_simp
    ring

/-- C3: the interpolated field is the negated gradient of the interpolated
potential.  For the degree-2 triangle and tetrahedron families this holds
as an exact central-difference identity for every step `ε ≠ 0`; for the
serendipity quadrilateral family (whose corner shape polynomials have
degree 3) and for the `Field` driver's per-element field it holds as the
exact linear-Taylor-coefficient (directional-derivative) identity; and the
driver returns exactly the located element's per-family interpolated
field. -/
theorem field_is_neg_grad_potential :
    (∀ (A : Fin 3 → ℚ) (B : Fin 3 → ℚ × ℚ) (v : Fin 6 → ℚ) (x y e : ℚ),
      e ≠ 0 →
      (Field3 A B v x y).1 =
        -((Phi3 A B v (x + e) y - Phi3 A B v (x - e) y) / (2 * e)) ∧
      (Field3 A B v x y).2 =
        -((Phi3 A B v x (y + e) - Phi3 A B v x (y - e)) / (2 * e))) ∧
    (∀ (A : Fin 2 → ℚ) (B : Fin 2 → ℚ × ℚ) (v : Fin 8 → ℚ) (x y : ℚ),
      IsLinCoeff (fun e => Phi5 A B v (x + e) y) (-(Field5 A B v x y).1) ∧
      IsLinCoeff (fun e => Phi5 A B v x (y + e)) (-(Field5 A B v x y).2)) ∧
    (∀ (A : Fin 4 → ℚ) (B : Fin 4 → Vec3) (v : Fin 10 → ℚ) (p : Vec3) (e : ℚ),
      e ≠ 0 →
      (Field13 A B v p).x =
        -((Phi13 A B v ⟨p.x + e, p.y, p.z⟩ - Phi13 A B v ⟨p.x - e, p.y, p.z⟩) / (2 * e)) ∧
      (Field13 A B v p).y =
        -((Phi13 A B v ⟨p.x, p.y + e, p.z⟩ - Phi13 A B v ⟨p.x, p.y - e, p.z⟩) / (2 * e)) ∧
      (Field13 A B v p).z =
        -((Phi13 A B v ⟨p.x, p.y, p.z + e⟩ - Phi13 A B v ⟨p.x, p.y, p.z - e⟩) / (2 * e))) ∧
    (∀ (elems : List Element) (vv : Element → Fin 4 → ℚ) (p : Vec3)
      (i : ℕ) (el : Element) (t : Bary),
      FindElement13 elems p = some (i, el, t) →
      Field elems vv p = ⟨FieldStatus.Ok, negGradAffine el (vv el), some i⟩) ∧
    (∀ (el : Element) (vv : Fin 4 → ℚ) (p : Vec3), elemDet el ≠ 0 →
      IsLinCoeff (fun s => Phi12 el vv ⟨p.x + s, p.y, p.z⟩) (-(negGradAffine el vv).x) ∧
      IsLinCoeff (fun s => Phi12 el vv ⟨p.x, p.y + s, p.z⟩) (-(negGradAffine el vv).y) ∧
      IsLinCoeff (fun s => Phi12 el vv ⟨p.x, p.y, p.z + s⟩) (-(negGradAffine el vv).z)) := by
  refine ⟨field3_central_diff, field5_lin_coeff, field13_central_diff,
    fun elems vv p i el t h => ?_, negGradAffine_lin_coeff⟩
  simp [Field, h]

/-- C3 witness: the tetrahedral central-difference identity evaluated with
concrete affine coefficients, nodal potentials, point and step `ε = 1`,
and the driver-field gradient identity on the concrete non-degenerate
element `tetUnit`. -/
theorem field_is_neg_grad_potential_witness :
    ((1 : ℚ) ≠ 0 ∧
      ((Field13 wA13 wB13 wV13 wP).x =
        -((Phi13 wA13 wB13 wV13 ⟨wP.x + 1, wP.y, wP.z⟩ -
            Phi13 wA13 wB13 wV13 ⟨wP.x - 1, wP.y, wP.z⟩) / (2 * 1)) ∧
      (Field13 wA13 wB13 wV13 wP).y =
        -((Phi13 wA13 wB13 wV13 ⟨wP.x, wP.y + 1, wP.z⟩ -
            Phi13 wA13 wB13 wV13 ⟨wP.x, wP.y - 1, wP.z⟩) / (2 * 1)) ∧
      (Field13 wA13 wB13 wV13 wP).z =
        -((Phi13 wA13 wB13 wV13 ⟨wP.x, wP.y, wP.z + 1⟩ -
            Phi13 wA13 wB13 wV13 ⟨wP.x, wP.y, wP.z - 1⟩) / (2 * 1)))) ∧
    (elemDet tetUnit ≠ 0 ∧
      (IsLinCoeff (fun s => Phi12 tetUnit wV4 ⟨wP.x + s, wP.y, wP.z⟩)
          (-(negGradAffine tetUnit wV4).x) ∧
        IsLinCoeff (fun s => Phi12 tetUnit wV4 ⟨wP.x, wP.y + s, wP.z⟩)
          (-(negGradAffine tetUnit wV4).y) ∧
        IsLinCoeff (fun s => Phi12 tetUnit wV4 ⟨wP.x, wP.y, wP.z + s⟩)
          (-(negGradAffine tetUnit wV4).z))) :=
  ⟨⟨by norm_num,
    field_is_neg_grad_potential.2.2.1 wA13 wB13 wV13 wP 1 (by norm_num)⟩,
   ⟨by norm_num [elemDet, det3, tetUnit],
    field_is_neg_grad_potential.2.2.2.2 tetUnit wV4 wP
      (by norm_num [elemDet, det3, tetUnit])⟩⟩

/-- Entries of a strictly increasing list are strictly ordered by
index. -/
theorem chain_getD_lt (l : List ℚ) (h : l.Chain' (· < ·)) (i j : ℕ)
    (hij : i < j) (hj : j < l.length) : l.getD i 0 < l.getD j 0 := by
  have hp := List.chain'_iff_pairwise.mp h
  rw [List.pairwise_iff_getElem] at hp
  have hi : i < l.length := lt_trans hij hj
  rw [l.getD_eq_getElem 0 hi, l.getD_eq_getElem 0 hj]
  exact hp i j hi hj hij

/-- Entries of a strictly increasing list are monotone by index. -/
theorem chain_getD_le (l : List ℚ) (h : l.Chain' (· < ·)) (i j : ℕ)
    (hij : i ≤ j) (hj : j < l.length) : l.getD i 0 ≤ l.getD j 0 := by
  rcases Nat.lt_or_ge i j with hlt | hge
  · exact le_of_lt (chain_getD_lt l h i j hlt hj)
  · have : i = j := le_antisymm hij hge
    rw [this]

/-- Shifting an index by one steps into the tail of the list. -/
theorem getD_succ_tail (vals : List ℚ) (i : ℕ) :
    vals.getD (i + 1) 0 = vals.tail.getD i 0 := by
  cases vals <;> simp [List.getD]

/-- The two blend weights always sum to one for a strictly increasing
sample-time sequence. -/
theorem tI_weights_sum (times : List ℚ) (t : ℚ) (h : times.Chain' (· < ·)) :
    (TimeInterpolation times t).1 + (TimeInterpolation times t).2.1 = 1 := by
  induction times with
  | nil => norm_num [TimeInterpolation]
  | cons s0 rest ih =>
    match rest with
    | [] => norm_num [TimeInterpolation]
    | s1 :: rest2 =>
      have h01 : s0 < s1 := (List.chain'_cons.mp h).1
      have htail : (s1 :: rest2).Chain' (· < ·) := (List.chain'_cons.mp h).2
      by_cases h0 : t < s0
      · simp [TimeInterpolation, h0]
      · by_cases h1 : t < s1
        · have hne : s1 - s0 ≠ 0 := by intro hc; nlinarith
          simp only [TimeInterpolation, h0, h1, if_false, if_true]
          field_simp
        · have := ih htail
          simp only [TimeInterpolation, h0, h1, if_false]
          exact this

/-- Below the first sample the interpolation clamps to the first index
with full weight on it. -/
theorem tI_clamp_low (times : List ℚ) (t : ℚ) (hne : times ≠ [])
    (hlo : t < times.getD 0 0) : TimeInterpolation times t = (1, 0, 0, 0) := by
  match times with
  | [] => exact absurd rfl hne
  | [s] => rfl
  | s0 :: s1 :: rest =>
    have h0 : t < s0 := by simpa [List.getD] using hlo
    simp [TimeInterpolation, h0]

/-- At or above the last sample the interpolation clamps to the last index
with full weight on it. -/
theorem tI_clamp_high (times : List ℚ) (t : ℚ) (h : times.Chain' (· < ·))
    (hne : times ≠ []) (hhi : times.getD (times.length - 1) 0 ≤ t) :
    TimeInterpolation times t = (1, 0, times.length - 1, times.length - 1) := by
  induction times with
  | nil => exact absurd rfl hne
  | cons s0 rest ih =>
    match rest with
    | [] => rfl
    | s1 :: rest2 =>
      have h01 : s0 < s1 := (List.chain'_cons.mp h).1
      have htail : (s1 :: rest2).Chain' (· < ·) := (List.chain'_cons.mp h).2
      have hlen : (s0 :: s1 :: rest2).length - 1 = (s1 :: rest2).length - 1 + 1 := by
        simp
      have hhi2 : (s1 :: rest2).getD ((s1 :: rest2).length - 1) 0 ≤ t := by
        rw [hlen] at hhi
        rwa [getD_succ_tail] at hhi
      have hs1 : s1 ≤ t := by
        refine le_trans ?_ hhi2
        have := chain_getD_le (s1 :: rest2) htail 0 ((s1 :: rest2).length - 1)
          (Nat.zero_le _) (by simp)
        simpa [List.getD] using this
      have h0 : ¬ t < s0 := by push_neg; linarith
      have h1 : ¬ t < s1 := by push_neg; exact hs1
      have hrec := ih htail (by simp) hhi2
      simp only [TimeInterpolation, h0, h1, if_false, hrec, hlen]

/-- For a requested time within the sample range, the returned indices
bracket the time: `times[i0] ≤ t < times[i1]` with `i1 = i0 + 1`. -/
theorem tI_bracket (times : List ℚ) (t : ℚ) (h : times.Chain' (· < ·))
    (hlo : times.getD 0 0 ≤ t)
    (hhi : t < times.getD (times.length - 1) 0) :
    times.getD (TimeInterpolation times t).2.2.1 0 ≤ t ∧
    t < times.getD (TimeInterpolation times t).2.2.2 0 ∧
    (TimeInterpolation times t).2.2.2 = (TimeInterpolation times t).2.2.1 + 1 ∧
    (TimeInterpolation times t).2.2.2 < times.length := by
  induction times with
  | nil => simp [List.getD] at hlo hhi; linarith
  | cons s0 rest ih =>
    match rest with
    | [] =>
      simp only [List.length_singleton, Nat.sub_self, List.getD] at hlo hhi
      simp at hlo hhi
      linarith
    | s1 :: rest2 =>
      have h01 : s0 < s1 := (List.chain'_cons.mp h).1
      have htail : (s1 :: rest2).Chain' (· < ·) := (List.chain'_cons.mp h).2
      have h0 : ¬ t < s0 := by push_neg; simpa [List.getD] using hlo
      by_cases h1 : t < s1
      · simp only [TimeInterpolation, h0, h1, if_false, if_true]
        refine ⟨by simpa [List.getD] using hlo, by simpa [List.getD] using h1,
          by norm_num, by simp⟩
      · have hlen : (s0 :: s1 :: rest2).length - 1 = (s1 :: rest2).length - 1 + 1 := by
          simp
        have hhi2 : t < (s1 :: rest2).getD ((s1 :: rest2).length - 1) 0 := by
          rw [hlen] at hhi
          rwa [getD_succ_tail] at hhi
        have hlo2 : (s1 :: rest2).getD 0 0 ≤ t := by
          push_neg at h1
          simpa [List.getD] using h1
        have hrec := ih htail hlo2 hhi2
        simp only [TimeInterpolation, h0, h1, if_false]
        refine ⟨?_, ?_, ?_, ?_⟩
        · rw [getD_succ_tail]
          exact hrec.1
        · rw [getD_succ_tail]
          exact hrec.2.1
        · simp [hrec.2.2.1]
        · simpa using hrec.2.2.2

/-- The blend reproduces the stored sample value exactly when evaluated at
any sample time. -/
theorem tI_sample_exact (times : List ℚ) (h : times.Chain' (· < ·)) :
    ∀ (k : ℕ), k < times.length → ∀ (vals : List ℚ),
      blendT (TimeInterpolation times (times.getD k 0)) vals = vals.getD k 0 := by
  induction times with
  | nil => intro k hk; simp at hk
  | cons s0 rest ih =>
    intro k hk vals
    match rest with
    | [] =>
      match k with
      | 0 => simp [TimeInterpolation, blendT]
      | Nat.succ m => simp at hk
    | s1 :: rest2 =>
      have h01 : s0 < s1 := (List.chain'_cons.mp h).1
      have htail : (s1 :: rest2).Chain' (· < ·) := (List.chain'_cons.mp h).2
      match k with
      | 0 =>
        have t0 : (s0 :: s1 :: rest2).getD 0 0 = s0 := by simp [List.getD]
        rw [t0]
        have h0 : ¬ s0 < s0 := lt_irrefl s0
        have h1 : s0 < s1 := h01
        have hne : s1 - s0 ≠ 0 := by intro hc; nlinarith
        simp only [TimeInterpolation, h0, h1, if_false, if_true, blendT]
        rw [sub_self, zero_div, div_self hne]
        simp [List.getD]
      | Nat.succ m =>
        have hk2 : m < (s1 :: rest2).length := by simpa using hk
        have tshift : (s0 :: s1 :: rest2).getD (m + 1) 0 = (s1 :: rest2).getD m 0 :=
          getD_succ_tail _ m
        rw [tshift]
        set t := (s1 :: rest2).getD m 0 with ht
        have h00 : (s1 :: rest2).getD 0 0 = s1 := by simp [List.getD]
        have hle := chain_getD_le (s1 :: rest2) htail 0 m (Nat.zero_le m) hk2
        have hs1 : s1 ≤ t := by rw [ht]; exact h00 ▸ hle
        have h0 : ¬ t < s0 := by push_neg; linarith
        have h1 : ¬ t < s1 := by push_neg; exact hs1
        have hrec := ih htail m hk2 vals.tail
        simp only [TimeInterpolation, h0, h1, if_false, blendT] at hrec ⊢
        rw [getD_succ_tail vals, getD_succ_tail vals, getD_succ_tail vals]
        exact hrec

/-- Evaluated at the midpoint of a bracket, the interpolation returns
equal weights `1/2` on the two bracketing samples. -/
theorem tI_midpoint (times : List ℚ) (h : times.Chain' (· < ·)) :
    ∀ (k : ℕ), k + 1 < times.length →
      TimeInterpolation times ((times.getD k 0 + times.getD (k + 1) 0) / 2) =
        (1/2, 1/2, k, k + 1) := by
  induction times with
  | nil => intro k hk; simp at hk
  | cons s0 rest ih =>
    intro k hk
    match rest with
    | [] => simp at hk
    | s1 :: rest2 =>
      have h01 : s0 < s1 := (List.chain'_cons.mp h).1
      have htail : (s1 :: rest2).Chain' (· < ·) := (List.chain'_cons.mp h).2
      match k with
      | 0 =>
        have t0 : (s0 :: s1 :: rest2).getD 0 0 = s0 := by simp [List.getD]
        have t1 : (s0 :: s1 :: rest2).getD 1 0 = s1 := by simp [List.getD]
        rw [t0, t1]
        have h0 : ¬ (s0 + s1) / 2 < s0 := by push_neg; linarith
        have h1 : (s0 + s1) / 2 < s1 := by linarith
        have hne : s1 - s0 ≠ 0 := by intro hc; nlinarith
        simp only [TimeInterpolation, h0, h1, if_false, if_true]
        refine Prod.ext ?_ (Prod.ext ?_ rfl) <;>
        · simp only
          rw [div_eq_div_iff hne (by norm_num : (2:ℚ) ≠ 0)]
          ring
      | Nat.succ m =>
        have hk2 : m + 1 < (s1 :: rest2).length := by simpa using hk
        have tshift1 : (s0 :: s1 :: rest2).getD (m + 1) 0 = (s1 :: rest2).getD m 0 :=
          getD_succ_tail _ m
        have tshift2 : (s0 :: s1 :: rest2).getD (m + 2) 0 = (s1 :: rest2).getD (m + 1) 0 :=
          getD_succ_tail _ (m + 1)
        rw [tshift1, tshift2]
        set t := ((s1 :: rest2).getD m 0 + (s1 :: rest2).getD (m + 1) 0) / 2 with ht
        have h00 : (s1 :: rest2).getD 0 0 = s1 := by simp [List.getD]
        have hm : s1 ≤ (s1 :: rest2).getD m 0 :=
          h00 ▸ chain_getD_le (s1 :: rest2) htail 0 m (Nat.zero_le m)
            (Nat.lt_of_succ_lt hk2)
        have hmm : (s1 :: rest2).getD m 0 < (s1 :: rest2).getD (m + 1) 0 :=
          chain_getD_lt (s1 :: rest2) htail m (m + 1) (Nat.lt_succ_self m) hk2
        have hs1 : s1 ≤ t := by rw [ht]; linarith
        have h0 : ¬ t < s0 := by push_neg; linarith
        have h1 : ¬ t < s1 := by push_neg; exact hs1
        have hrec := ih htail m hk2
        simp only [TimeInterpolation, h0, h1, if_false, hrec]

/-- C5: for every monotonically increasing non-empty sample-time sequence,
`TimeInterpolation` returns blend weights summing to one; for an in-range
time it returns the bracketing pair of indices with `t0 ≤ t < t1` and
`i1 = i0 + 1`; an out-of-range time clamps both indices to the nearest end
with full weight there; the linear blend reproduces the stored sample
value exactly at every sample time; and at the midpoint of a bracket the
blend is the arithmetic mean of the two bracketing sample values (hence
exact for linearly varying values). -/
theorem timeInterpolation_bracketing_blend
    (times : List ℚ) (h : times.Chain' (· < ·)) (hne : times ≠ []) :
    (∀ t : ℚ, (TimeInterpolation times t).1 + (TimeInterpolation times t).2.1 = 1) ∧
    (∀ t : ℚ, times.getD 0 0 ≤ t → t < times.getD (times.length - 1) 0 →
      times.getD (TimeInterpolation times t).2.2.1 0 ≤ t ∧
      t < times.getD (TimeInterpolation times t).2.2.2 0 ∧
      (TimeInterpolation times t).2.2.2 = (TimeInterpolation times t).2.2.1 + 1 ∧
      (TimeInterpolation times t).2.2.2 < times.length) ∧
    (∀ t : ℚ, t < times.getD 0 0 → TimeInterpolation times t = (1, 0, 0, 0)) ∧
    (∀ t : ℚ, times.getD (times.length - 1) 0 ≤ t →
      TimeInterpolation times t = (1, 0, times.length - 1, times.length - 1)) ∧
    (∀ (k : ℕ), k < times.length → ∀ (vals : List ℚ),
      blendT (TimeInterpolation times (times.getD k 0)) vals = vals.getD k 0) ∧
    (∀ (k : ℕ) (vals : List ℚ), k + 1 < times.length →
      blendT (TimeInterpolation times ((times.getD k 0 + times.getD (k + 1) 0) / 2))
          vals =
        (vals.getD k 0 + vals.getD (k + 1) 0) / 2) := by
  refine ⟨fun t => tI_weights_sum times t h,
    fun t hlo hhi => tI_bracket times t h hlo hhi,
    fun t hlo => tI_clamp_low times t hne hlo,
    fun t hhi => tI_clamp_high times t h hne hhi,
    tI_sample_exact times h,
    fun k vals hk => ?_⟩
  rw [tI_midpoint times h k hk]
  simp only [blendT]
  ring

/-- C5 witness: the sample-time sequence `[0, 1]` is strictly increasing
and non-empty, and all the bracketing/clamping/blend properties hold for
it. -/
theorem timeInterpolation_bracketing_blend_witness :
    wTimes.Chain' (· < ·) ∧ wTimes ≠ [] ∧
    ((∀ t : ℚ, (TimeInterpolation wTimes t).1 + (TimeInterpolation wTimes t).2.1 = 1) ∧
    (∀ t : ℚ, wTimes.getD 0 0 ≤ t → t < wTimes.getD (wTimes.length - 1) 0 →
      wTimes.getD (TimeInterpolation wTimes t).2.2.1 0 ≤ t ∧
      t < wTimes.getD (TimeInterpolation wTimes t).2.2.2 0 ∧
      (TimeInterpolation wTimes t).2.2.2 = (TimeInterpolation wTimes t).2.2.1 + 1 ∧
      (TimeInterpolation wTimes t).2.2.2 < wTimes.length) ∧
    (∀ t : ℚ, t < wTimes.getD 0 0 → TimeInterpolation wTimes t = (1, 0, 0, 0)) ∧
    (∀ t : ℚ, wTimes.getD (wTimes.length - 1) 0 ≤ t →
      TimeInterpolation wTimes t = (1, 0, wTimes.length - 1, wTimes.length - 1)) ∧
    (∀ (k : ℕ), k < wTimes.length → ∀ (vals : List ℚ),
      blendT (TimeInterpolation wTimes (wTimes.getD k 0)) vals = vals.getD k 0) ∧
    (∀ (k : ℕ) (vals : List ℚ), k + 1 < wTimes.length →
      blendT (TimeInterpolation wTimes ((wTimes.getD k 0 + wTimes.getD (k + 1) 0) / 2))
          vals =
        (vals.getD k 0 + vals.getD (k + 1) 0) / 2)) :=
  ⟨by norm_num [wTimes, List.chain'_cons], by simp [wTimes],
    timeInterpolation_bracketing_blend wTimes
      (by norm_num [wTimes, List.chain'_cons]) (by simp [wTimes])⟩

/-- Under the non-convergence hypothesis the capped Newton loop runs its
full fuel and returns the final iterate with a `false` flag. -/
theorem newtonLoop_nonconv {α : Type} (step : α → α) (conv : α → Bool) :
    ∀ (n : ℕ) (c0 : α), (∀ k, k ≤ n → conv (step^[k] c0) = false) →
      newtonLoop step conv n c0 = (step^[n] c0, false) := by
  intro n
  induction n with
  | zero =>
    intro c0 h
    have h0 := h 0 (Nat.le_refl 0)
    simp only [Function.iterate_zero, id_eq] at h0
    simp [newtonLoop, h0]
  | succ n ih =>
    intro c0 h
    have h0 := h 0 (Nat.zero_le _)
    simp only [Function.iterate_zero, id_eq] at h0
    have hrec := ih (step c0) (fun k hk => by
      rw [← Function.iterate_succ_apply]
      exact h (k + 1) (Nat.succ_le_succ hk))
    simp only [newtonLoop, h0, Bool.false_eq_true, if_false, hrec,
      Function.iterate_succ_apply]

/-- C7: if the Newton iteration never reaches the convergence criterion
within the fixed iteration cap, the coordinate solve still terminates and
returns the best-available coordinates (the final iterate) as a non-fatal
soft failure: the convergence flag is `false`, the warning counter is
incremented by one, and a diagnostic is emitted exactly when convergence
warnings are enabled.  The solve is a total function, so it never aborts
on non-convergence. -/
theorem coordinates13_nonconvergence_soft {α : Type} (step : α → α)
    (conv : α → Bool) (cap : ℕ) (c0 : α) (s : WarningState)
    (h : ∀ k, k ≤ cap → conv (step^[k] c0) = false) :
    Coordinates13 step conv cap c0 s =
      (step^[cap] c0, false,
       ⟨s.m_nWarnings + 1, s.m_printConvergenceWarnings⟩,
       s.m_printConvergenceWarnings) := by
  have hloop := newtonLoop_nonconv step conv cap c0 h
  simp [Coordinates13, hloop]

/-- C7 witness: a never-converging iteration with cap 3 starting from `0`
returns the third iterate, an unset convergence flag, the counter bumped
from 0 to 1, and an emitted diagnostic (warnings enabled). -/
theorem coordinates13_nonconvergence_soft_witness :
    Coordinates13 (fun q : ℚ => q + 1) (fun _ => false) 3 0 ⟨0, true⟩ =
      ((fun q : ℚ => q + 1)^[3] 0, false, ⟨1, true⟩, true) :=
  coordinates13_nonconvergence_soft (fun q : ℚ => q + 1) (fun _ => false) 3 0
    ⟨0, true⟩ (fun _ _ => rfl)

end Garfield
